import Mathlib

/-!
Shallow embedding of `src/emnlp_final_experiments/sentiment-analysis/train_basic.py`
(the leave-one-domain-out sentiment training script).

The development models, directly from the source:
* the early-stopping epoch loop of `train` (lines 60-136);
* the interleaved multi-domain batch scheduler inside `train` (lines 61-103);
* the fresh-split / save-indices logic of `__main__` (lines 222-223, 245-255);
* the reload-indices logic of `__main__` (lines 256-269);
* the micro/macro metric aggregation of `__main__` (lines 344-361).

Python floats only ever enter these claims through order comparisons, so
accuracy and loss values are embedded as rationals; index files are embedded
at the granularity of their parsed `(domain_slot, example_index)` lines.
-/

namespace TrainBasic

/-! ### Early-stopping controller (train_basic.py, `train`, lines 52-136) -/

/-- Observable outcome of the epoch loop of `train`: `checkpoints` lists the
0-based indices of the epochs at which `acc > best_acc` held, i.e. at which
the checkpoint file was written (line 120) and the validation metrics were
logged to wandb (lines 123-128); `epochsRun` counts the epochs that were
executed (training pass plus inline validation). -/
structure ESResult where
  checkpoints : List ℕ
  epochsRun : ℕ
deriving DecidableEq, Repr

/-- The epoch loop of `train`, lines 60 and 105-136. `accs e` is the
validation accuracy returned by `validation_evaluator.evaluate` after epoch
`e` (line 108); `fuel` is `n_epochs - epoch_counter`, `best` is `best_acc`,
`pc` is `patience_counter`, `epoch` is `epoch_counter`.  On `acc > best_acc`
the checkpoint is saved and the patience counter reset (lines 115-128);
otherwise the counter is incremented and the loop breaks once it equals
`patience` (lines 129-133). -/
def esGo (accs : ℕ → ℚ) (patience : ℕ) : ℕ → ℚ → ℕ → ℕ → ESResult
  | 0, _, _, _ => ⟨[], 0⟩
  | fuel + 1, best, pc, epoch =>
    let acc := accs epoch
    if best < acc then
      let r := esGo accs patience fuel acc 0 (epoch + 1)
      ⟨epoch :: r.checkpoints, r.epochsRun + 1⟩
    else if pc + 1 = patience then ⟨[], 1⟩
    else
      let r := esGo accs patience fuel best (pc + 1) (epoch + 1)
      ⟨r.checkpoints, r.epochsRun + 1⟩

/-- The `train` controller started from its initial state `best_acc = 0.0`,
`patience_counter = 0`, `epoch_counter = 0` (lines 53-56). -/
def train (accs : ℕ → ℚ) (n_epochs patience : ℕ) : ESResult :=
  esGo accs patience n_epochs 0 0 0

/-- Running maximum of the accuracies over epochs `s, s+1, ..., e-1`, seeded
with `b`: the value `best_acc` holds when epoch `e` is validated, given it
held `b` when epoch `s` started. -/
def foldBest (accs : ℕ → ℚ) (b : ℚ) (s e : ℕ) : ℚ :=
  (List.range' s (e - s)).foldl (fun acc k => max acc (accs k)) b

/-- The validation-accuracy sequence `[0.5, 0.6, 0.55, 0.55]` of the spec's
early-stopping example (accuracy `0` from epoch 4 on). -/
def demoAccs : ℕ → ℚ := fun e => [mkRat 1 2, mkRat 3 5, mkRat 11 20, mkRat 11 20].getD e 0

theorem foldBest_le_init (accs : ℕ → ℚ) (l : List ℕ) :
    ∀ b : ℚ, b ≤ l.foldl (fun acc k => max acc (accs k)) b := by
  induction l with
  | nil => intro b; exact le_refl b
  | cons a l ih =>
    intro b
    exact le_trans (le_max_left b (accs a)) (ih (max b (accs a)))

theorem foldBest_ge (accs : ℕ → ℚ) (b : ℚ) (s e : ℕ) : b ≤ foldBest accs b s e :=
  foldBest_le_init accs _ b

theorem foldBest_succ_left (accs : ℕ → ℚ) (b : ℚ) (s e : ℕ) (h : s < e) :
    foldBest accs b s e = foldBest accs (max b (accs s)) (s + 1) e := by
  unfold foldBest
  have hd : e - s = (e - (s + 1)) + 1 := by omega
  rw [hd, List.range'_succ]
  rfl

theorem esGo_epochsRun_le (accs : ℕ → ℚ) (patience : ℕ) :
    ∀ fuel (best : ℚ) pc epoch,
      (esGo accs patience fuel best pc epoch).epochsRun ≤ fuel := by
  intro fuel
  induction fuel with
  | zero => intro best pc epoch; simp [esGo]
  | succ n ih =>
    intro best pc epoch
    by_cases himp : best < accs epoch
    · rw [esGo, if_pos himp]
      have := ih (accs epoch) 0 (epoch + 1)
      dsimp only
      omega
    · rw [esGo, if_neg himp]
      by_cases hpat : pc + 1 = patience
      · rw [if_pos hpat]; dsimp only; omega
      · rw [if_neg hpat]
        have := ih best (pc + 1) (epoch + 1)
        dsimp only
        omega

theorem esGo_checkpoints_sound (accs : ℕ → ℚ) (patience : ℕ) :
    ∀ fuel (best : ℚ) pc epoch e,
      e ∈ (esGo accs patience fuel best pc epoch).checkpoints →
        epoch ≤ e ∧ e < epoch + (esGo accs patience fuel best pc epoch).epochsRun ∧
          foldBest accs best epoch e < accs e := by
  intro fuel
  induction fuel with
  | zero => intro best pc epoch e h; simp [esGo] at h
  | succ n ih =>
    intro best pc epoch e h
    by_cases himp : best < accs epoch
    · rw [esGo, if_pos himp] at h ⊢
      dsimp only at h ⊢
      rcases List.mem_cons.mp h with rfl | h
      · refine ⟨le_refl e, by omega, ?_⟩
        simpa [foldBest] using himp
      · obtain ⟨h1, h2, h3⟩ := ih (accs epoch) 0 (epoch + 1) e h
        refine ⟨by omega, by omega, ?_⟩
        rw [foldBest_succ_left accs best epoch e (by omega)]
        have hb : max best (accs epoch) = accs epoch := max_eq_right (le_of_lt himp)
        rwa [hb]
    · rw [esGo, if_neg himp] at h ⊢
      by_cases hpat : pc + 1 = patience
      · rw [if_pos hpat] at h
        simp at h
      · rw [if_neg hpat] at h ⊢
        dsimp only at h ⊢
        obtain ⟨h1, h2, h3⟩ := ih best (pc + 1) (epoch + 1) e h
        refine ⟨by omega, by omega, ?_⟩
        rw [foldBest_succ_left accs best epoch e (by omega)]
        have hb : max best (accs epoch) = best := max_eq_left (not_lt.mp himp)
        rwa [hb]

theorem esGo_checkpoints_complete (accs : ℕ → ℚ) (patience : ℕ) :
    ∀ fuel (best : ℚ) pc epoch,
      (∃ e, epoch ≤ e ∧ e < epoch + (esGo accs patience fuel best pc epoch).epochsRun ∧
        best < accs e) →
      (esGo accs patience fuel best pc epoch).checkpoints ≠ [] := by
  intro fuel
  induction fuel with
  | zero => intro best pc epoch h; obtain ⟨e, h1, h2, _⟩ := h; simp [esGo] at h2; omega
  | succ n ih =>
    intro best pc epoch h
    by_cases himp : best < accs epoch
    · rw [esGo, if_pos himp]
      simp
    · rw [esGo, if_neg himp] at h ⊢
      have hne : ∀ e, epoch ≤ e → best < accs e → epoch + 1 ≤ e := by
        intro e he hlt
        rcases Nat.eq_or_lt_of_le he with rfl | hlt2
        · exact absurd hlt himp
        · omega
      by_cases hpat : pc + 1 = patience
      · rw [if_pos hpat] at h
        obtain ⟨e, h1, h2, h3⟩ := h
        dsimp only at h2
        have := hne e h1 h3
        omega
      · rw [if_neg hpat] at h ⊢
        dsimp only at h ⊢
        obtain ⟨e, h1, h2, h3⟩ := h
        apply ih best (pc + 1) (epoch + 1)
        exact ⟨e, hne e h1 h3, by omega, h3⟩

/-- Modelled from the spec: the final `torch.load` of the per-fold checkpoint
file (train_basic.py line 323) is an external collaborator; when no
checkpoint file was ever written it raises a missing-file error which
`__main__` does not catch, so the error propagates and aborts the run. -/
def loadBestCheckpoint (checkpointWritten : Bool) : Except String Unit :=
  if checkpointWritten then Except.ok () else Except.error "FileNotFoundError"

/-- C1 (early-stopping protocol): the controller executes at most `n_epochs`
epochs; a checkpoint is saved (and the validation metrics recorded) exactly
when the epoch's validation accuracy strictly exceeds the best seen before
it, so every checkpointed epoch improves on the running maximum of the
earlier accuracies seeded with the initial `best_acc = 0.0`; and on the
spec's example — accuracies `[0.5, 0.6, 0.55, 0.55]` with patience `2` —
checkpoints are written after epochs 1 and 2 (0-based epochs 0 and 1) and
training stops after epoch 4, two non-improvements after the epoch-2 best. -/
theorem earlyStopping_protocol (accs : ℕ → ℚ) (n_epochs patience : ℕ) :
    (train accs n_epochs patience).epochsRun ≤ n_epochs
    ∧ (∀ e ∈ (train accs n_epochs patience).checkpoints,
        e < (train accs n_epochs patience).epochsRun ∧ foldBest accs 0 0 e < accs e)
    ∧ (train demoAccs 10 2).checkpoints = [0, 1]
    ∧ (train demoAccs 10 2).epochsRun = 4 := by
  refine ⟨esGo_epochsRun_le accs patience n_epochs 0 0 0, ?_, by decide, by decide⟩
  intro e he
  simp only [train] at he ⊢
  obtain ⟨h1, h2, h3⟩ := esGo_checkpoints_sound accs patience n_epochs 0 0 0 e he
  exact ⟨by omega, h3⟩

/-- C6 (missing-checkpoint behaviour): a checkpoint file exists at the end of
a fold's training exactly when some executed epoch reached validation
accuracy strictly above `0.0`; so the final checkpoint load succeeds in
exactly that case, and otherwise it propagates the missing-file error. -/
theorem missingCheckpoint_behaviour (accs : ℕ → ℚ) (n_epochs patience : ℕ) :
    ((train accs n_epochs patience).checkpoints ≠ [] ↔
      ∃ e < (train accs n_epochs patience).epochsRun, 0 < accs e)
    ∧ (loadBestCheckpoint (!(train accs n_epochs patience).checkpoints.isEmpty)
        = Except.ok () ↔
      ∃ e < (train accs n_epochs patience).epochsRun, 0 < accs e) := by
  have hiff : (train accs n_epochs patience).checkpoints ≠ [] ↔
      ∃ e < (train accs n_epochs patience).epochsRun, 0 < accs e := by
    simp only [train]
    constructor
    · intro hne
      obtain ⟨e, he⟩ := List.exists_mem_of_ne_nil _ hne
      obtain ⟨h1, h2, h3⟩ := esGo_checkpoints_sound accs patience n_epochs 0 0 0 e he
      exact ⟨e, by omega, lt_of_le_of_lt (foldBest_ge accs 0 0 e) h3⟩
    · rintro ⟨e, he, hpos⟩
      exact esGo_checkpoints_complete accs patience n_epochs 0 0 0
        ⟨e, by omega, by omega, hpos⟩
  refine ⟨hiff, ?_⟩
  rw [← hiff]
  cases h : (train accs n_epochs patience).checkpoints with
  | nil => simp [loadBestCheckpoint]
  | cons a l => simp [loadBestCheckpoint]

/-! ### Fold splitting and index persistence (__main__, lines 222-223, 245-269) -/

/-- Python's `int()` on a rational: truncation toward zero, as in
`int(len(dset) * args.train_pct)` (line 222). -/
def pyInt (x : ℚ) : ℤ := if 0 ≤ x then ⌊x⌋ else ⌈x⌉

/-- `train_sizes[j] = int(len(dset) * args.train_pct)` (line 222), used as a
subset length. -/
def trainSize (n : ℕ) (p : ℚ) : ℕ := (pyInt ((n : ℚ) * p)).toNat

/-- `torch.utils.data.random_split(all_dsets[j], [train_size, val_size])`
(line 246) draws a random permutation of `range(n)` and gives the first
`train_size` drawn indices to the train subset and the remaining ones to the
validation subset; the permutation is the model's explicit source of
randomness. -/
def randomSplit (perm : List ℕ) (t : ℕ) : List ℕ × List ℕ :=
  (perm.take t, perm.drop t)

/-- The nested write loop of lines 251-255: for the remaining-domain slot `j`
(slots counted from `k`), one `"{j},{idx}"` line per index of block `j`; a
file is modelled as the list of its parsed `(slot, index)` lines in file
order. -/
def tagLines : ℕ → List (List ℕ) → List (ℕ × ℕ)
  | _, [] => []
  | k, idxs :: rest => idxs.map (fun idx => (k, idx)) ++ tagLines (k + 1) rest

/-- Lines 249-255: the contents written to `train_idx_{domain}.txt` and
`val_idx_{domain}.txt` from the per-remaining-domain subsets, given as
(train indices, validation indices) pairs in slot order. -/
def saveIndexLines (subsets : List (List ℕ × List ℕ)) :
    List (ℕ × ℕ) × List (ℕ × ℕ) :=
  (tagLines 0 (subsets.map Prod.fst), tagLines 0 (subsets.map Prod.snd))

/-- Insertion order of the keys of the `defaultdict` at line 259: a slot is
inserted the first time a line mentions it, all train-file lines being read
before the val-file lines (lines 262-267). -/
def firstKeys (slots : List ℕ) : List ℕ :=
  slots.foldl (fun acc a => if a ∈ acc then acc else acc ++ [a]) []

/-- `subset_indices[d]` once both files are read (lines 262-267): the
train-file indices tagged `d` and the val-file indices tagged `d`, in file
order. -/
def groupFor (d : ℕ) (tf vf : List (ℕ × ℕ)) : List ℕ × List ℕ :=
  ((tf.filter (fun l => l.1 == d)).map Prod.snd,
   (vf.filter (fun l => l.1 == d)).map Prod.snd)

/-- The comprehension of lines 268-269:
`[[Subset(dset_choices[d], ...), Subset(dset_choices[d], ...)] for d in subset_indices]`.
`dset_choices[d]` with `d ≥ len(dset_choices)` raises an uncaught
IndexError, modelled as `Except.error "IndexError"`. -/
def buildSubsets (numChoices : ℕ) (tf vf : List (ℕ × ℕ)) :
    List ℕ → Except String (List (ℕ × List ℕ × List ℕ))
  | [] => Except.ok []
  | d :: ds =>
    if d < numChoices then
      match buildSubsets numChoices tf vf ds with
      | Except.ok rest => Except.ok ((d, groupFor d tf vf) :: rest)
      | Except.error e => Except.error e
    else Except.error "IndexError"

/-- The whole reload branch of lines 256-269 for one fold: `numChoices` is
`len(dset_choices)`, the number of remaining (non-held-out) domains; `tf` and
`vf` are the parsed lines of the two index files. -/
def reloadSubsets (numChoices : ℕ) (tf vf : List (ℕ × ℕ)) :
    Except String (List (ℕ × List ℕ × List ℕ)) :=
  buildSubsets numChoices tf vf (firstKeys ((tf ++ vf).map Prod.fst))

theorem filter_tag_map (idxs : List ℕ) (k d : ℕ) :
    ((idxs.map (fun idx => (k, idx))).filter (fun l => l.1 == d)).map Prod.snd =
      if k = d then idxs else [] := by
  induction idxs with
  | nil => simp
  | cons a l ih =>
    by_cases hk : k = d
    · subst hk
      simpa using ih
    · simp only [List.map_cons, List.filter_cons]
      have : ((k, a).1 == d) = false := by simpa using hk
      rw [this]
      simp [ih, hk]

theorem tagLines_filter (blocks : List (List ℕ)) :
    ∀ k d, ((tagLines k blocks).filter (fun l => l.1 == d)).map Prod.snd =
      if k ≤ d then blocks.getD (d - k) [] else [] := by
  induction blocks with
  | nil => intro k d; simp [tagLines]
  | cons idxs rest ih =>
    intro k d
    simp only [tagLines, List.filter_append, List.map_append, filter_tag_map, ih]
    by_cases hk : k = d
    · subst hk
      simp
    · by_cases hle : k + 1 ≤ d
      · have h1 : k ≤ d := by omega
        have h2 : d - k = (d - (k + 1)) + 1 := by omega
        simp [hk, hle, h1, h2]
      · have h1 : ¬ k ≤ d := by omega
        simp [hk, hle, h1]

theorem tagLines_fst_bound (blocks : List (List ℕ)) :
    ∀ k x, x ∈ tagLines k blocks → k ≤ x.1 ∧ x.1 < k + blocks.length := by
  induction blocks with
  | nil => intro k x h; simp [tagLines] at h
  | cons idxs rest ih =>
    intro k x h
    simp only [tagLines, List.mem_append, List.mem_map] at h
    rcases h with ⟨idx, _, rfl⟩ | h
    · dsimp only
      simp only [List.length_cons]
      omega
    · have := ih (k + 1) x h
      simp only [List.length_cons]
      omega

theorem count_pair (l : List (ℕ × ℕ)) (j idx : ℕ) :
    l.count (j, idx) = ((l.filter (fun p => p.1 == j)).map Prod.snd).count idx := by
  induction l with
  | nil => simp
  | cons a l ih =>
    obtain ⟨x, y⟩ := a
    by_cases hx : x = j
    · subst hx
      by_cases hy : y = idx
      · subst hy
        simp [List.count_cons, List.filter_cons, ih]
      · simp [List.count_cons, List.filter_cons, ih, hy, Prod.ext_iff]
    · simp [List.count_cons, List.filter_cons, ih, hx, Prod.ext_iff]

theorem getD_map_fst (subsets : List (List ℕ × List ℕ)) :
    ∀ d, (subsets.map Prod.fst).getD d [] = (subsets.getD d ([], [])).1 := by
  induction subsets with
  | nil => intro d; simp
  | cons s rest ih =>
    intro d
    cases d with
    | zero => simp
    | succ d => simpa using ih d

theorem getD_map_snd (subsets : List (List ℕ × List ℕ)) :
    ∀ d, (subsets.map Prod.snd).getD d [] = (subsets.getD d ([], [])).2 := by
  induction subsets with
  | nil => intro d; simp
  | cons s rest ih =>
    intro d
    cases d with
    | zero => simp
    | succ d => simpa using ih d

theorem firstKeys_aux_mem (slots : List ℕ) :
    ∀ acc x, (x ∈ slots.foldl
        (fun acc a => if a ∈ acc then acc else acc ++ [a]) acc) ↔
      x ∈ acc ∨ x ∈ slots := by
  induction slots with
  | nil => intro acc x; simp
  | cons a l ih =>
    intro acc x
    simp only [List.foldl_cons]
    rw [ih]
    by_cases ha : a ∈ acc
    · simp only [if_pos ha, List.mem_cons]
      constructor
      · rintro (h | h)
        · exact Or.inl h
        · exact Or.inr (Or.inr h)
      · rintro (h | rfl | h)
        · exact Or.inl h
        · exact Or.inl ha
        · exact Or.inr h
    · simp only [if_neg ha, List.mem_append, List.mem_singleton, List.mem_cons]
      tauto

theorem firstKeys_mem (slots : List ℕ) (x : ℕ) :
    x ∈ firstKeys slots ↔ x ∈ slots := by
  rw [firstKeys, firstKeys_aux_mem]
  simp

theorem buildSubsets_ok_eq (numChoices : ℕ) (tf vf : List (ℕ × ℕ)) :
    ∀ keys l, buildSubsets numChoices tf vf keys = Except.ok l →
      l = keys.map (fun d => (d, groupFor d tf vf)) := by
  intro keys
  induction keys with
  | nil => intro l h; simp only [buildSubsets] at h; cases h; simp
  | cons d ds ih =>
    intro l h
    simp only [buildSubsets] at h
    by_cases hd : d < numChoices
    · rw [if_pos hd] at h
      cases hrec : buildSubsets numChoices tf vf ds with
      | ok rest =>
        rw [hrec] at h
        cases h
        simp [ih rest hrec]
      | error e => rw [hrec] at h; cases h
    · rw [if_neg hd] at h; cases h

theorem buildSubsets_ok_iff (numChoices : ℕ) (tf vf : List (ℕ × ℕ)) :
    ∀ keys, (∃ l, buildSubsets numChoices tf vf keys = Except.ok l) ↔
      ∀ d ∈ keys, d < numChoices := by
  intro keys
  induction keys with
  | nil => simp [buildSubsets]
  | cons d ds ih =>
    constructor
    · rintro ⟨l, h⟩
      simp only [buildSubsets] at h
      by_cases hd : d < numChoices
      · rw [if_pos hd] at h
        cases hrec : buildSubsets numChoices tf vf ds with
        | ok rest =>
          intro x hx
          rcases List.mem_cons.mp hx with rfl | hx
          · exact hd
          · exact (ih.mp ⟨rest, hrec⟩) x hx
        | error e => rw [hrec] at h; cases h
      · rw [if_neg hd] at h; cases h
    · intro hall
      have hd : d < numChoices := hall d (List.mem_cons_self d ds)
      obtain ⟨rest, hrec⟩ := ih.mpr (fun x hx => hall x (List.mem_cons_of_mem d hx))
      refine ⟨(d, groupFor d tf vf) :: rest, ?_⟩
      simp only [buildSubsets, if_pos hd, hrec]

theorem buildSubsets_oob (numChoices : ℕ) (tf vf : List (ℕ × ℕ)) :
    ∀ keys, (∃ d ∈ keys, numChoices ≤ d) →
      buildSubsets numChoices tf vf keys = Except.error "IndexError" := by
  intro keys
  induction keys with
  | nil => rintro ⟨d, hd, _⟩; simp at hd
  | cons d ds ih =>
    rintro ⟨x, hx, hge⟩
    simp only [buildSubsets]
    by_cases hd : d < numChoices
    · rw [if_pos hd]
      have hxds : x ∈ ds := by
        rcases List.mem_cons.mp hx with rfl | h
        · omega
        · exact h
      rw [ih ⟨x, hxds, hge⟩]
    · rw [if_neg hd]

theorem trainSize_eq_floor (n : ℕ) (p : ℚ) (hp : 0 ≤ p) :
    trainSize n p = (⌊(n : ℚ) * p⌋).toNat := by
  unfold trainSize pyInt
  rw [if_pos (mul_nonneg (Nat.cast_nonneg n) hp)]

theorem trainSize_le (n : ℕ) (p : ℚ) (hp : 0 ≤ p) (hp1 : p ≤ 1) :
    trainSize n p ≤ n := by
  rw [trainSize_eq_floor n p hp]
  have h1 : (n : ℚ) * p ≤ (n : ℚ) := mul_le_of_le_one_right (Nat.cast_nonneg n) hp1
  have h2 : ⌊(n : ℚ) * p⌋ ≤ ⌊((n : ℕ) : ℚ)⌋ := Int.floor_le_floor h1
  rw [Int.floor_natCast] at h2
  omega

theorem groupFor_fst_nil (d : ℕ) (tf vf : List (ℕ × ℕ)) (h : d ∉ tf.map Prod.fst) :
    (groupFor d tf vf).1 = [] := by
  unfold groupFor
  dsimp only
  have : tf.filter (fun l => l.1 == d) = [] := by
    rw [List.filter_eq_nil_iff]
    intro a ha
    simp only [beq_iff_eq]
    intro heq
    exact h (List.mem_map.mpr ⟨a, ha, heq⟩)
  rw [this, List.map_nil]

theorem groupFor_snd_nil (d : ℕ) (tf vf : List (ℕ × ℕ)) (h : d ∉ vf.map Prod.fst) :
    (groupFor d tf vf).2 = [] := by
  unfold groupFor
  dsimp only
  have : vf.filter (fun l => l.1 == d) = [] := by
    rw [List.filter_eq_nil_iff]
    intro a ha
    simp only [beq_iff_eq]
    intro heq
    exact h (List.mem_map.mpr ⟨a, ha, heq⟩)
  rw [this, List.map_nil]

/-- C7 (fresh-split partition): with train fraction `p` between 0 and 1 and a
fold's random draw a permutation of `range n`, the train subset holds
`⌊n * p⌋` indices, the validation subset the other `n - ⌊n * p⌋`; the two are
disjoint and together are exactly the indices `0, ..., n-1`; and the two
index files persist, for every slot `j`, exactly the slot-`j` subset's
indices as `(j, idx)` lines (counted with multiplicity). -/
theorem freshSplit_partition (n : ℕ) (p : ℚ) (perm : List ℕ)
    (hp0 : 0 ≤ p) (hp1 : p ≤ 1) (hperm : perm.Perm (List.range n)) :
    (randomSplit perm (trainSize n p)).1.length = (⌊(n : ℚ) * p⌋).toNat ∧
    (randomSplit perm (trainSize n p)).2.length = n - (⌊(n : ℚ) * p⌋).toNat ∧
    (randomSplit perm (trainSize n p)).1.Disjoint (randomSplit perm (trainSize n p)).2 ∧
    ((randomSplit perm (trainSize n p)).1 ++ (randomSplit perm (trainSize n p)).2).Perm
      (List.range n) ∧
    (∀ (subsets : List (List ℕ × List ℕ)) (j idx : ℕ),
      (saveIndexLines subsets).1.count (j, idx) = (subsets.getD j ([], [])).1.count idx ∧
      (saveIndexLines subsets).2.count (j, idx) = (subsets.getD j ([], [])).2.count idx) := by
  have hlen : perm.length = n := by
    rw [hperm.length_eq, List.length_range]
  have hle : trainSize n p ≤ n := trainSize_le n p hp0 hp1
  have hnodup : perm.Nodup := (hperm.nodup_iff).mpr (List.nodup_range n)
  have happ : (randomSplit perm (trainSize n p)).1 ++
      (randomSplit perm (trainSize n p)).2 = perm := by
    unfold randomSplit
    exact List.take_append_drop _ perm
  refine ⟨?_, ?_, ?_, ?_, ?_⟩
  · unfold randomSplit
    dsimp only
    rw [List.length_take, hlen, min_eq_left hle, trainSize_eq_floor n p hp0]
  · unfold randomSplit
    dsimp only
    rw [List.length_drop, hlen, trainSize_eq_floor n p hp0]
  · have : ((randomSplit perm (trainSize n p)).1 ++
        (randomSplit perm (trainSize n p)).2).Nodup := by
      rw [happ]; exact hnodup
    exact (List.nodup_append.mp this).2.2
  · rw [happ]; exact hperm
  · intro subsets j idx
    constructor
    · rw [count_pair]
      unfold saveIndexLines
      dsimp only
      rw [tagLines_filter, if_pos (Nat.zero_le j), Nat.sub_zero, getD_map_fst]
    · rw [count_pair]
      unfold saveIndexLines
      dsimp only
      rw [tagLines_filter, if_pos (Nat.zero_le j), Nat.sub_zero, getD_map_snd]

theorem freshSplit_partition_witness :
    (randomSplit [3, 0, 4, 1, 2] (trainSize 5 (mkRat 4 5))).1.length =
      (⌊(5 : ℚ) * mkRat 4 5⌋).toNat :=
  (freshSplit_partition 5 (mkRat 4 5) [3, 0, 4, 1, 2] (by decide) (by decide)
    (by decide)).1

/-- C8 (split round-trip): saving a fold's fresh-split indices and reloading
them gives back, for every domain slot `d`, exactly the slot's original train
and validation index lists; the reload succeeds (no error) and each built
subset pair is byte-for-byte the original one. -/
theorem splitSaveReload_roundTrip (subsets : List (List ℕ × List ℕ)) :
    (∀ d, groupFor d (saveIndexLines subsets).1 (saveIndexLines subsets).2 =
      subsets.getD d ([], [])) ∧
    ∃ l, reloadSubsets subsets.length (saveIndexLines subsets).1
          (saveIndexLines subsets).2 = Except.ok l ∧
      ∀ e ∈ l, e.1 < subsets.length ∧ e.2 = subsets.getD e.1 ([], []) := by
  have hgroup : ∀ d, groupFor d (saveIndexLines subsets).1 (saveIndexLines subsets).2 =
      subsets.getD d ([], []) := by
    intro d
    unfold groupFor saveIndexLines
    dsimp only
    rw [tagLines_filter, tagLines_filter, if_pos (Nat.zero_le d), if_pos (Nat.zero_le d),
      Nat.sub_zero, getD_map_fst, getD_map_snd]
  refine ⟨hgroup, ?_⟩
  have hslot : ∀ s ∈ (((saveIndexLines subsets).1 ++ (saveIndexLines subsets).2).map
      Prod.fst), s < subsets.length := by
    intro s hs
    obtain ⟨x, hx, rfl⟩ := List.mem_map.mp hs
    rcases List.mem_append.mp hx with h | h
    · have := tagLines_fst_bound (subsets.map Prod.fst) 0 x h
      simpa using this.2
    · have := tagLines_fst_bound (subsets.map Prod.snd) 0 x h
      simpa using this.2
  have hkeys : ∀ d ∈ firstKeys (((saveIndexLines subsets).1 ++
      (saveIndexLines subsets).2).map Prod.fst), d < subsets.length := by
    intro d hd
    exact hslot d ((firstKeys_mem _ d).mp hd)
  obtain ⟨l, hl⟩ := (buildSubsets_ok_iff subsets.length _ _ _).mpr hkeys
  refine ⟨l, hl, ?_⟩
  intro e he
  have hleq := buildSubsets_ok_eq subsets.length _ _ _ l hl
  rw [hleq] at he
  obtain ⟨d, hd, rfl⟩ := List.mem_map.mp he
  exact ⟨hkeys d hd, hgroup d⟩

/-- C5 counterexample: reloading split indices performs no configuration
check at all.  The two files below were written by a fresh-split run whose
remaining-domain ordering assigned slot 0 to one domain and slot 1 to the
other; a later run whose remaining-domain list is permuted (or entirely
different) but also of length 2 reloads them with no error of any kind —
`reloadSubsets` receives nothing identifying the current domain set, so its
successful result here refutes "fails with a configuration error if the
indices directory does not correspond to the same domain set/ordering". -/
theorem reloadConfigCheck_counterexample :
    reloadSubsets 2 [(0, 0), (1, 0), (1, 1)] [(0, 1), (1, 2)] =
      Except.ok [(0, ([0], [1])), (1, ([0, 1], [2]))] := rfl

/-- C5 amended: reload mode validates nothing about the current run's domain
set or ordering: reloading succeeds exactly when every slot value occurring
in the two files is below the number of remaining domains of the current
run, and otherwise it fails with an uncaught IndexError (an out-of-range
list access, not a configuration check); index files saved under a different
domain ordering of the same length are accepted silently. -/
theorem reloadConfigCheck_amended (numChoices : ℕ) (tf vf : List (ℕ × ℕ)) :
    ((∃ l, reloadSubsets numChoices tf vf = Except.ok l) ↔
      ∀ s ∈ (tf ++ vf).map Prod.fst, s < numChoices) ∧
    ((∃ s ∈ (tf ++ vf).map Prod.fst, numChoices ≤ s) →
      reloadSubsets numChoices tf vf = Except.error "IndexError") := by
  constructor
  · rw [reloadSubsets, buildSubsets_ok_iff]
    constructor
    · intro h s hs
      exact h s ((firstKeys_mem _ s).mpr hs)
    · intro h d hd
      exact h d ((firstKeys_mem _ d).mp hd)
  · rintro ⟨s, hs, hge⟩
    rw [reloadSubsets]
    exact buildSubsets_oob _ _ _ _ ⟨s, (firstKeys_mem _ s).mpr hs, hge⟩

/-- C10 (implicit reload-mode behaviour): a successful reload is exactly the
slot values occurring in the two files, in order of first appearance
(train-file lines first), each paired with the indices filed under it — so a
slot absent from both files is silently dropped (no entry, no error), a slot
occurring in only one file gets an empty subset on the other side, and a
slot at least the number of remaining domains makes the whole reload fail
with an uncaught IndexError; nothing else about the files is validated. -/
theorem reload_implicit_behaviour (numChoices : ℕ) (tf vf : List (ℕ × ℕ)) :
    (∀ l, reloadSubsets numChoices tf vf = Except.ok l →
      l = (firstKeys ((tf ++ vf).map Prod.fst)).map (fun d => (d, groupFor d tf vf)) ∧
      (∀ s, s ∉ (tf ++ vf).map Prod.fst → ∀ pr, (s, pr) ∉ l) ∧
      (∀ e ∈ l, (e.1 ∉ tf.map Prod.fst → e.2.1 = []) ∧
        (e.1 ∉ vf.map Prod.fst → e.2.2 = []))) ∧
    ((∃ s ∈ (tf ++ vf).map Prod.fst, numChoices ≤ s) →
      reloadSubsets numChoices tf vf = Except.error "IndexError") := by
  constructor
  · intro l hl
    rw [reloadSubsets] at hl
    have hleq := buildSubsets_ok_eq numChoices tf vf _ l hl
    refine ⟨hleq, ?_, ?_⟩
    · intro s hs pr hmem
      rw [hleq] at hmem
      obtain ⟨d, hd, heq⟩ := List.mem_map.mp hmem
      have hds : d = s := congrArg Prod.fst heq
      subst hds
      exact hs ((firstKeys_mem _ d).mp hd)
    · intro e he
      rw [hleq] at he
      obtain ⟨d, hd, rfl⟩ := List.mem_map.mp he
      exact ⟨fun h => groupFor_fst_nil d tf vf h, fun h => groupFor_snd_nil d tf vf h⟩
  · rintro ⟨s, hs, hge⟩
    rw [reloadSubsets]
    exact buildSubsets_oob _ _ _ _ ⟨s, (firstKeys_mem _ s).mpr hs, hge⟩

/-! ### Metric aggregation (__main__, lines 344-361) -/

/-- Predicted label of a two-logit row, `np.argmax(logits, axis=-1)` as on
line 347: index of the larger logit, ties to the lower index. -/
def argmaxPred (logit : ℚ × ℚ) : ℕ := if logit.1 < logit.2 then 1 else 0

/-- Modelled from the spec: `acc_f1` and the evaluators live in `metrics.py`,
which is not among the staged sources; per the spec's metric contract
(`compute(logits, labels) -> (accuracy, ...)`), accuracy over (label, logit)
pairs is the fraction of rows whose argmax prediction equals the label,
`mkRat correct total` being the exact value of the Python ratio. -/
def accuracy (labels : List ℕ) (logits : List (ℚ × ℚ)) : ℚ :=
  mkRat ((labels.zip logits).countP (fun r => r.1 == argmaxPred r.2)) labels.length

theorem accuracy_eq_div (labels : List ℕ) (logits : List (ℚ × ℚ)) :
    accuracy labels logits =
      (((labels.zip logits).countP (fun r => r.1 == argmaxPred r.2) : ℕ) : ℚ) /
        ((labels.length : ℕ) : ℚ) := by
  rw [accuracy, Rat.mkRat_eq_div]
  norm_num

/-- Lines 344-345 and 350: `labels_all.extend(labels)`,
`logits_all.extend(logits)` across the folds, then a single
`acc_f1(logits_all, labels_all)` call over the pooled lists — the micro
accuracy. -/
def microAcc (folds : List (List ℕ × List (ℚ × ℚ))) : ℚ :=
  accuracy ((folds.map Prod.fst).flatten) ((folds.map Prod.snd).flatten)

/-- Line 358: `sum(accs) / len(accs)`, the macro accuracy over the per-fold
accuracy values. -/
def macroAcc (accs : List ℚ) : ℚ := accs.sum / ((accs.length : ℕ) : ℚ)

/-- Fold A of the spec's aggregation example: 10 held-out examples, 8
predicted correctly (accuracy 0.8); every logit row predicts label 1. -/
def foldA : List ℕ × List (ℚ × ℚ) :=
  (List.replicate 8 1 ++ List.replicate 2 0, List.replicate 10 (0, 1))

/-- Fold B of the spec's aggregation example: 90 held-out examples, 54
predicted correctly (accuracy 0.6). -/
def foldB : List ℕ × List (ℚ × ℚ) :=
  (List.replicate 54 1 ++ List.replicate 36 0, List.replicate 90 (0, 1))

/-- C4 (metric aggregation): on the spec's example — fold A with accuracy
0.8 over 10 examples, fold B with accuracy 0.6 over 90 — the macro accuracy
(mean of the per-fold accuracies) is 0.7 while the micro accuracy (one
accuracy over the pooled (label, logit) pairs of both folds) is the
example-weighted 0.62, so the two aggregates differ under imbalance. -/
theorem metricAggregation :
    accuracy foldA.1 foldA.2 = mkRat 8 10 ∧
    accuracy foldB.1 foldB.2 = mkRat 6 10 ∧
    macroAcc [accuracy foldA.1 foldA.2, accuracy foldB.1 foldB.2] = mkRat 7 10 ∧
    microAcc [foldA, foldB] = mkRat 62 100 ∧
    microAcc [foldA, foldB] ≠
      macroAcc [accuracy foldA.1 foldA.2, accuracy foldB.1 foldB.2] := by
  have hA : accuracy foldA.1 foldA.2 = mkRat 8 10 := by decide
  have hB : accuracy foldB.1 foldB.2 = mkRat 6 10 := by decide
  have hMacro : macroAcc [mkRat 8 10, mkRat 6 10] = mkRat 7 10 := by
    rw [macroAcc]
    simp only [List.sum_cons, List.sum_nil, List.length_cons, List.length_nil,
      Rat.mkRat_eq_div]
    norm_num
  have hMicro : microAcc [foldA, foldB] = mkRat 62 100 := by decide
  refine ⟨hA, hB, ?_, hMicro, ?_⟩
  · rw [hA, hB, hMacro]
  · rw [hA, hB, hMacro, hMicro]
    decide

/-! ### Interleaved batch scheduler (`train`, lines 61-103) -/

/-- State of one training epoch of `train` (lines 61-103).  A batch is
identified by its (domain, position) pair; `iters d` is what remains of
domain `d`'s iterator (line 61), `finished` the per-domain flags (line 63),
`groups` the processed accumulation groups in order, each tagged with its
domain, `ctr` the per-epoch batch counter `i` (line 64), `logs` the values
of `i` at which a loss scalar went to wandb (lines 92-95), `backwards` the
`loss.backward()` calls with their `loss / gradient_accumulation` value
(lines 90 and 97), `optSteps` the number of `optimizer.step()` calls
(line 101) and `schedSteps` the number of `scheduler.step()` calls
(lines 102-103). -/
structure SchedState where
  iters : ℕ → List (ℕ × ℕ)
  finished : ℕ → Bool
  groups : List (ℕ × List (ℕ × ℕ))
  ctr : ℕ
  logs : List ℕ
  backwards : List ((ℕ × ℕ) × ℚ)
  optSteps : ℕ
  schedSteps : ℕ

/-- The batches domain `d`'s fresh iterator yields in one epoch, in order. -/
def origBatches (counts : List ℕ) (d : ℕ) : List (ℕ × ℕ) :=
  (List.range (counts.getD d 0)).map (fun j => (d, j))

/-- Initial epoch state (lines 61-64): fresh iterators, nothing finished,
batch counter `i = 0`. -/
def initSched (counts : List ℕ) : SchedState where
  iters := fun d => origBatches counts d
  finished := fun _ => false
  groups := []
  ctr := 0
  logs := []
  backwards := []
  optSteps := 0
  schedSteps := 0

/-- One batch of the inner loop (lines 79-99): emit the scaled loss when
`i % log_interval == 0` (lines 92-95), record the `loss.backward()` with the
`loss / gradient_accumulation` value (lines 90, 97), advance `i` (line 98).
`lossOf` gives the model's raw loss on a batch. -/
def procBatch (logInterval g : ℕ) (lossOf : ℕ × ℕ → ℚ) (s : SchedState)
    (b : ℕ × ℕ) : SchedState :=
  let s1 := if s.ctr % logInterval = 0 then { s with logs := s.logs ++ [s.ctr] } else s
  { s1 with backwards := s1.backwards ++ [(b, lossOf b / (g : ℚ))], ctr := s1.ctr + 1 }

/-- One round of the scheduler body for domain `d` (lines 68-103): pull up to
`g = gradient_accumulation` batches from `d`'s iterator (lines 70-73); on
`StopIteration` — fewer than `g` batches remaining — mark `d` finished
(line 75); when additionally zero batches were pulled, `continue` to the next
domain (lines 76-77); otherwise process the pulled batches as one
accumulation group and take exactly one `optimizer.step()` plus, when a
scheduler is present, one `scheduler.step()` (lines 78-103). -/
def roundStep (g logInterval : ℕ) (hasSched : Bool) (lossOf : ℕ × ℕ → ℚ)
    (s : SchedState) (d : ℕ) : SchedState :=
  let it := s.iters d
  let exhausted : Bool := decide (it.length < g)
  let taken := it.take g
  let s1 : SchedState :=
    { s with
      iters := fun x => if x = d then it.drop g else s.iters x,
      finished := if exhausted then (fun x => if x = d then true else s.finished x)
        else s.finished }
  if exhausted && taken.isEmpty then s1
  else
    let s2 := taken.foldl (procBatch logInterval g lossOf) s1
    { s2 with
      groups := s2.groups ++ [(d, taken)],
      optSteps := s2.optSteps + 1,
      schedSteps := s2.schedSteps + (if hasSched then 1 else 0) }

/-- One pass of the `while` body (lines 66-103): visit every domain index in
the shuffled order `perm` (lines 67-68). -/
def passRun (g logInterval : ℕ) (hasSched : Bool) (lossOf : ℕ × ℕ → ℚ)
    (s : SchedState) (perm : List ℕ) : SchedState :=
  perm.foldl (roundStep g logInterval hasSched lossOf) s

/-- The loop guard `sum(finished) < len(dl_iters)` of line 66. -/
def someUnfinished (n : ℕ) (s : SchedState) : Bool :=
  (List.range n).any (fun d => ! s.finished d)

/-- The `while sum(finished) < len(dl_iters)` loop (lines 66-103): pass `k`
visits the domains in order `perms k`, the state of `dl_idx` after the
in-place `random.shuffle` of line 67 — always some permutation of
`range(len(dl_iters))`.  `fuel` bounds the number of passes; one more than
the total batch count suffices. -/
def epochLoop (n g logInterval : ℕ) (hasSched : Bool) (lossOf : ℕ × ℕ → ℚ)
    (perms : ℕ → List ℕ) : ℕ → ℕ → SchedState → SchedState
  | 0, _, s => s
  | fuel + 1, k, s =>
    if someUnfinished n s then
      epochLoop n g logInterval hasSched lossOf perms fuel (k + 1)
        (passRun g logInterval hasSched lossOf s (perms k))
    else s

/-- One full training epoch, for per-domain batch counts `counts`. -/
def runEpoch (counts : List ℕ) (g logInterval : ℕ) (hasSched : Bool)
    (lossOf : ℕ × ℕ → ℚ) (perms : ℕ → List ℕ) : SchedState :=
  epochLoop counts.length g logInterval hasSched lossOf perms
    (counts.sum + 1) 0 (initSched counts)

/-- Batches consumed from domain `d`: the concatenation, in trace order, of
the accumulation groups tagged `d`. -/
def consumed (d : ℕ) (groups : List (ℕ × List (ℕ × ℕ))) : List (ℕ × ℕ) :=
  ((groups.filter (fun p => p.1 == d)).map Prod.snd).flatten

/-- Number of accumulation groups tagged `d`. -/
def countG (d : ℕ) (groups : List (ℕ × List (ℕ × ℕ))) : ℕ :=
  (groups.filter (fun p => p.1 == d)).length

/-- Ceiling division: `cdiv m g = ⌈m / g⌉` whenever `g` is positive. -/
def cdiv (m g : ℕ) : ℕ := (m + g - 1) / g

theorem procFold (logInterval g : ℕ) (lossOf : ℕ × ℕ → ℚ) :
    ∀ (bs : List (ℕ × ℕ)) (s : SchedState),
      bs.foldl (procBatch logInterval g lossOf) s =
        { s with
          backwards := s.backwards ++ bs.map (fun b => (b, lossOf b / (g : ℚ))),
          ctr := s.ctr + bs.length,
          logs := s.logs ++ ((List.range' s.ctr bs.length).filter
            (fun x => x % logInterval == 0)) } := by
  intro bs
  induction bs with
  | nil => intro s; simp [List.range']
  | cons b bs ih =>
    intro s
    rw [List.foldl_cons, ih]
    simp only [List.length_cons, List.map_cons]
    rw [List.range'_succ, List.filter_cons]
    by_cases hmod : s.ctr % logInterval = 0
    · have hb : (s.ctr % logInterval == 0) = true := by simpa using hmod
      rw [hb]
      simp [procBatch, hmod, List.append_assoc, Nat.add_comm, Nat.add_left_comm]
    · have hb : (s.ctr % logInterval == 0) = false := by simpa using hmod
      rw [hb]
      simp [procBatch, hmod, List.append_assoc, Nat.add_comm, Nat.add_left_comm]

/-- Invariant of the epoch loop, tying a scheduler state to the loaders'
batch counts: finished domains have exhausted iterators; what was consumed
followed by what remains is exactly the loader's batch list, in order;
groups are nonempty, tagged in range, and homogeneous; one optimizer step
(and scheduler step, when present) per group; a finished domain has
`⌈count / g⌉` groups, an unfinished one only full groups; backward calls are
the grouped batches with `1/g`-scaled losses; a loss scalar was logged at
exactly the counter values divisible by `log_interval`. -/
def SchedInv (counts : List ℕ) (g logInterval : ℕ) (hasSched : Bool)
    (lossOf : ℕ × ℕ → ℚ) (s : SchedState) : Prop :=
  (∀ d, counts.length ≤ d → s.iters d = []) ∧
  (∀ d, s.finished d = true → s.iters d = []) ∧
  (∀ d, consumed d s.groups ++ s.iters d = origBatches counts d) ∧
  (∀ p ∈ s.groups, p.1 < counts.length ∧ p.2 ≠ [] ∧ ∀ b ∈ p.2, b.1 = p.1) ∧
  s.optSteps = s.groups.length ∧
  s.schedSteps = (if hasSched then s.optSteps else 0) ∧
  (∀ d, s.finished d = true → countG d s.groups = cdiv (counts.getD d 0) g) ∧
  (∀ d, s.finished d = false → (consumed d s.groups).length = countG d s.groups * g) ∧
  s.backwards = ((s.groups.map Prod.snd).flatten).map (fun b => (b, lossOf b / (g : ℚ))) ∧
  s.logs = (List.range s.ctr).filter (fun x => x % logInterval == 0) ∧
  s.ctr = ((s.groups.map Prod.snd).flatten).length

theorem roundStep_skip_eq (g logInterval : ℕ) (hasSched : Bool) (lossOf : ℕ × ℕ → ℚ)
    (s : SchedState) (d : ℕ) (hg : 1 ≤ g) (hit : s.iters d = []) :
    roundStep g logInterval hasSched lossOf s d =
      { s with
        iters := fun x => if x = d then [] else s.iters x,
        finished := fun x => if x = d then true else s.finished x } := by
  have h0 : (0 : ℕ) < g := hg
  unfold roundStep
  rw [hit]
  simp [h0]

theorem roundStep_proc_eq (g logInterval : ℕ) (hasSched : Bool) (lossOf : ℕ × ℕ → ℚ)
    (s : SchedState) (d : ℕ) (hg : 1 ≤ g) (hit : s.iters d ≠ []) :
    roundStep g logInterval hasSched lossOf s d =
      { iters := fun x => if x = d then (s.iters d).drop g else s.iters x,
        finished := if decide ((s.iters d).length < g) then
            (fun x => if x = d then true else s.finished x)
          else s.finished,
        groups := s.groups ++ [(d, (s.iters d).take g)],
        ctr := s.ctr + ((s.iters d).take g).length,
        logs := s.logs ++ ((List.range' s.ctr ((s.iters d).take g).length).filter
          (fun x => x % logInterval == 0)),
        backwards := s.backwards ++ ((s.iters d).take g).map
          (fun b => (b, lossOf b / (g : ℚ))),
        optSteps := s.optSteps + 1,
        schedSteps := s.schedSteps + (if hasSched then 1 else 0) } := by
  have htk : ((s.iters d).take g).isEmpty = false := by
    rw [List.isEmpty_eq_false]
    rw [Ne, List.take_eq_nil_iff]
    push_neg
    exact ⟨by omega, hit⟩
  unfold roundStep
  dsimp only
  rw [htk, Bool.and_false, if_neg Bool.false_ne_true, procFold]

theorem roundStep_iters_ne (g logInterval : ℕ) (hasSched : Bool) (lossOf : ℕ × ℕ → ℚ)
    (s : SchedState) (d x : ℕ) (hg : 1 ≤ g) (hx : x ≠ d) :
    (roundStep g logInterval hasSched lossOf s d).iters x = s.iters x := by
  by_cases hit : s.iters d = []
  · rw [roundStep_skip_eq g logInterval hasSched lossOf s d hg hit]
    simp [hx]
  · rw [roundStep_proc_eq g logInterval hasSched lossOf s d hg hit]
    simp [hx]

theorem roundStep_iters_self (g logInterval : ℕ) (hasSched : Bool) (lossOf : ℕ × ℕ → ℚ)
    (s : SchedState) (d : ℕ) (hg : 1 ≤ g) :
    (roundStep g logInterval hasSched lossOf s d).iters d = (s.iters d).drop g := by
  by_cases hit : s.iters d = []
  · rw [roundStep_skip_eq g logInterval hasSched lossOf s d hg hit, hit]
    simp
  · rw [roundStep_proc_eq g logInterval hasSched lossOf s d hg hit]
    simp

theorem roundStep_finished_ne (g logInterval : ℕ) (hasSched : Bool) (lossOf : ℕ × ℕ → ℚ)
    (s : SchedState) (d x : ℕ) (hg : 1 ≤ g) (hx : x ≠ d) :
    (roundStep g logInterval hasSched lossOf s d).finished x = s.finished x := by
  by_cases hit : s.iters d = []
  · rw [roundStep_skip_eq g logInterval hasSched lossOf s d hg hit]
    simp [hx]
  · rw [roundStep_proc_eq g logInterval hasSched lossOf s d hg hit]
    dsimp only
    split
    · simp [hx]
    · rfl

theorem roundStep_finished_mono (g logInterval : ℕ) (hasSched : Bool)
    (lossOf : ℕ × ℕ → ℚ) (s : SchedState) (d x : ℕ) (hg : 1 ≤ g)
    (hx : s.finished x = true) :
    (roundStep g logInterval hasSched lossOf s d).finished x = true := by
  by_cases hit : s.iters d = []
  · rw [roundStep_skip_eq g logInterval hasSched lossOf s d hg hit]
    simp [hx]
  · rw [roundStep_proc_eq g logInterval hasSched lossOf s d hg hit]
    dsimp only
    split
    · simp [hx]
    · exact hx

theorem roundStep_finishes_empty (g logInterval : ℕ) (hasSched : Bool)
    (lossOf : ℕ × ℕ → ℚ) (s : SchedState) (d : ℕ) (hg : 1 ≤ g)
    (hit : s.iters d = []) :
    (roundStep g logInterval hasSched lossOf s d).finished d = true := by
  rw [roundStep_skip_eq g logInterval hasSched lossOf s d hg hit]
  simp

theorem cdiv_mul (k g : ℕ) (hg : 1 ≤ g) : cdiv (k * g) g = k := by
  unfold cdiv
  rw [Nat.add_sub_assoc hg, Nat.add_comm,
    Nat.add_mul_div_right _ _ (show 0 < g by omega), Nat.div_eq_of_lt (by omega)]
  omega

theorem cdiv_mul_add (k g R : ℕ) (hg : 1 ≤ g) (hR0 : 0 < R) (hRg : R ≤ g) :
    cdiv (k * g + R) g = k + 1 := by
  obtain ⟨r, rfl⟩ : ∃ r, R = r + 1 := ⟨R - 1, by omega⟩
  unfold cdiv
  have h1 : k * g + (r + 1) + g - 1 = r + g + k * g := by
    rw [show k * g + (r + 1) + g = (r + g + k * g) + 1 by ring]
    exact Nat.add_sub_cancel _ _
  rw [h1, Nat.add_mul_div_right _ _ (show 0 < g by omega),
    Nat.add_div_right _ (show 0 < g by omega), Nat.div_eq_of_lt (by omega)]
  omega

theorem consumed_append_one (d t : ℕ) (bs : List (ℕ × ℕ))
    (gs : List (ℕ × List (ℕ × ℕ))) :
    consumed d (gs ++ [(t, bs)]) = consumed d gs ++ (if t = d then bs else []) := by
  unfold consumed
  rw [List.filter_append]
  by_cases h : t = d
  · simp [h]
  · simp [h]

theorem countG_append_one (d t : ℕ) (bs : List (ℕ × ℕ))
    (gs : List (ℕ × List (ℕ × ℕ))) :
    countG d (gs ++ [(t, bs)]) = countG d gs + (if t = d then 1 else 0) := by
  unfold countG
  rw [List.filter_append]
  by_cases h : t = d
  · simp [h]
  · simp [h]

theorem origBatches_length (counts : List ℕ) (d : ℕ) :
    (origBatches counts d).length = counts.getD d 0 := by
  simp [origBatches]

theorem origBatches_fst (counts : List ℕ) (d : ℕ) :
    ∀ b ∈ origBatches counts d, b.1 = d := by
  intro b hb
  simp only [origBatches, List.mem_map] at hb
  obtain ⟨j, _, rfl⟩ := hb
  rfl

theorem range_add_filter (p : ℕ → Bool) (a b : ℕ) :
    (List.range (a + b)).filter p =
      (List.range a).filter p ++ (List.range' a b).filter p := by
  induction b with
  | zero => simp [List.range']
  | succ m ih =>
    have hr : List.range (a + (m + 1)) = List.range (a + m) ++ [a + m] := by
      rw [show a + (m + 1) = (a + m) + 1 by omega, List.range_succ]
    have hr2 : List.range' a (m + 1) = List.range' a m ++ [a + m] := by
      rw [List.range'_1_concat]
    rw [hr, hr2, List.filter_append, ih, List.filter_append, List.append_assoc]

theorem roundStep_inv (counts : List ℕ) (g L : ℕ) (hS : Bool) (lossOf : ℕ × ℕ → ℚ)
    (hg : 1 ≤ g) (s : SchedState) (d : ℕ)
    (h : SchedInv counts g L hS lossOf s) :
    SchedInv counts g L hS lossOf (roundStep g L hS lossOf s d) := by
  obtain ⟨h1, h2, h3, h4, h5, h6, h7, h8, h9, h10, h11⟩ := h
  by_cases hit : s.iters d = []
  · rw [roundStep_skip_eq g L hS lossOf s d hg hit]
    have hcd : s.finished d = false → countG d s.groups = cdiv (counts.getD d 0) g := by
      intro hf
      have hlen : (consumed d s.groups).length = countG d s.groups * g := h8 d hf
      have horig : consumed d s.groups = origBatches counts d := by
        have := h3 d
        rwa [hit, List.append_nil] at this
      have : counts.getD d 0 = countG d s.groups * g := by
        rw [← origBatches_length counts d, ← horig, hlen]
      rw [this, cdiv_mul _ _ hg]
    refine ⟨?_, ?_, ?_, h4, h5, h6, ?_, ?_, h9, h10, h11⟩
    · intro x hx
      dsimp only
      by_cases hxd : x = d
      · simp [hxd]
      · simp only [if_neg hxd]
        exact h1 x hx
    · intro x hfx
      dsimp only at hfx ⊢
      by_cases hxd : x = d
      · simp [hxd]
      · simp only [if_neg hxd] at hfx ⊢
        exact h2 x hfx
    · intro x
      dsimp only
      by_cases hxd : x = d
      · subst hxd
        rw [if_pos rfl, ← hit]
        exact h3 x
      · rw [if_neg hxd]
        exact h3 x
    · intro x hfx
      dsimp only at hfx
      by_cases hxd : x = d
      · subst hxd
        cases hf : s.finished x with
        | true => exact h7 x hf
        | false => exact hcd hf
      · rw [if_neg hxd] at hfx
        exact h7 x hfx
    · intro x hfx
      dsimp only at hfx
      by_cases hxd : x = d
      · rw [if_pos hxd] at hfx
        cases hfx
      · rw [if_neg hxd] at hfx
        exact h8 x hfx
  · rw [roundStep_proc_eq g L hS lossOf s d hg hit]
    have hfin_d : s.finished d = false := by
      cases hf : s.finished d with
      | true => exact absurd (h2 d hf) hit
      | false => rfl
    have hdn : d < counts.length := by
      by_contra hge
      exact hit (h1 d (by omega))
    have htag : ∀ b ∈ s.iters d, b.1 = d := by
      intro b hb
      refine origBatches_fst counts d b ?_
      rw [← h3 d]
      exact List.mem_append_right _ hb
    have hTne : (s.iters d).take g ≠ [] := by
      rw [Ne, List.take_eq_nil_iff]
      push_neg
      exact ⟨by omega, hit⟩
    refine ⟨?_, ?_, ?_, ?_, ?_, ?_, ?_, ?_, ?_, ?_, ?_⟩
    · intro x hx
      dsimp only
      have hxd : x ≠ d := by
        intro heq
        subst heq
        omega
      rw [if_neg hxd]
      exact h1 x hx
    · intro x hfx
      dsimp only at hfx ⊢
      by_cases hE : (s.iters d).length < g
      · rw [if_pos (by simpa using hE)] at hfx
        by_cases hxd : x = d
        · rw [if_pos hxd]
          subst hxd
          exact List.drop_eq_nil_of_le (by omega)
        · rw [if_neg hxd] at hfx
          rw [if_neg hxd]
          exact h2 x hfx
      · rw [if_neg (by simpa using hE)] at hfx
        by_cases hxd : x = d
        · subst hxd
          rw [hfin_d] at hfx
          cases hfx
        · rw [if_neg hxd]
          exact h2 x hfx
    · intro x
      dsimp only
      rw [consumed_append_one]
      by_cases hxd : x = d
      · subst hxd
        rw [if_pos rfl, if_pos rfl, List.append_assoc, List.take_append_drop]
        exact h3 x
      · rw [if_neg (fun hdx => hxd hdx.symm), if_neg hxd, List.append_nil]
        exact h3 x
    · intro p hp
      dsimp only at hp
      rcases List.mem_append.mp hp with hp | hp
      · exact h4 p hp
      · rcases List.mem_singleton.mp hp with rfl
        refine ⟨hdn, hTne, ?_⟩
        intro b hb
        exact htag b (List.take_subset g (s.iters d) hb)
    · dsimp only
      rw [h5, List.length_append, List.length_singleton]
    · dsimp only
      rw [h6]
      cases hS <;> simp
    · intro x hfx
      dsimp only at hfx ⊢
      rw [countG_append_one]
      by_cases hE : (s.iters d).length < g
      · rw [if_pos (by simpa using hE)] at hfx
        by_cases hxd : x = d
        · subst hxd
          rw [if_pos rfl]
          have hlen : (consumed x s.groups).length = countG x s.groups * g := h8 x hfin_d
          have hsum : (consumed x s.groups).length + (s.iters x).length =
              counts.getD x 0 := by
            rw [← origBatches_length counts x, ← h3 x, List.length_append]
          rw [show counts.getD x 0 = countG x s.groups * g + (s.iters x).length by omega]
          rw [cdiv_mul_add _ _ _ hg (List.length_pos.mpr hit) (by omega)]

        · rw [if_neg hxd] at hfx
          rw [if_neg (fun hdx => hxd hdx.symm), Nat.add_zero]
          exact h7 x hfx
      · rw [if_neg (by simpa using hE)] at hfx
        by_cases hxd : x = d
        · subst hxd
          rw [hfin_d] at hfx
          cases hfx
        · rw [if_neg (fun hdx => hxd hdx.symm), Nat.add_zero]
          exact h7 x hfx
    · intro x hfx
      dsimp only at hfx ⊢
      rw [consumed_append_one, countG_append_one]
      by_cases hE : (s.iters d).length < g
      · rw [if_pos (by simpa using hE)] at hfx
        have hxd : x ≠ d := by
          intro heq
          subst heq
          rw [if_pos rfl] at hfx
          cases hfx
        rw [if_neg (fun hdx => hxd hdx.symm), if_neg (fun hdx => hxd hdx.symm),
          List.append_nil, Nat.add_zero]
        rw [if_neg hxd] at hfx
        exact h8 x hfx
      · rw [if_neg (by simpa using hE)] at hfx
        by_cases hxd : x = d
        · subst hxd
          rw [if_pos rfl, if_pos rfl, List.length_append, h8 x hfx,
            List.length_take, min_eq_left (by omega), Nat.add_mul, Nat.one_mul]
        · rw [if_neg (fun hdx => hxd hdx.symm), if_neg (fun hdx => hxd hdx.symm),
            List.append_nil, Nat.add_zero]
          exact h8 x hfx
    · dsimp only
      rw [h9, List.map_append, List.flatten_append, List.map_append]
      simp
    · dsimp only
      rw [h10, range_add_filter]
    · dsimp only
      rw [List.map_append, List.flatten_append, List.length_append, h11]
      simp

/-- Total number of batches still to pull across the fold's domains. -/
def rem (n : ℕ) (s : SchedState) : ℕ := ∑ d ∈ Finset.range n, (s.iters d).length

theorem passRun_inv (counts : List ℕ) (g L : ℕ) (hS : Bool) (lossOf : ℕ × ℕ → ℚ)
    (hg : 1 ≤ g) :
    ∀ (perm : List ℕ) (s : SchedState), SchedInv counts g L hS lossOf s →
      SchedInv counts g L hS lossOf (passRun g L hS lossOf s perm) := by
  intro perm
  induction perm with
  | nil => intro s h; exact h
  | cons a rest ih =>
    intro s h
    exact ih _ (roundStep_inv counts g L hS lossOf hg s a h)

theorem roundStep_rem_le (g L : ℕ) (hS : Bool) (lossOf : ℕ × ℕ → ℚ) (hg : 1 ≤ g)
    (n : ℕ) (s : SchedState) (d : ℕ) :
    rem n (roundStep g L hS lossOf s d) ≤ rem n s := by
  unfold rem
  apply Finset.sum_le_sum
  intro x _
  by_cases hxd : x = d
  · subst hxd
    rw [roundStep_iters_self g L hS lossOf s x hg, List.length_drop]
    omega
  · rw [roundStep_iters_ne g L hS lossOf s d x hg hxd]

theorem roundStep_rem_lt (g L : ℕ) (hS : Bool) (lossOf : ℕ × ℕ → ℚ) (hg : 1 ≤ g)
    (n : ℕ) (s : SchedState) (d : ℕ) (hd : d < n) (hne : s.iters d ≠ []) :
    rem n (roundStep g L hS lossOf s d) < rem n s := by
  unfold rem
  refine Finset.sum_lt_sum ?_ ⟨d, Finset.mem_range.mpr hd, ?_⟩
  · intro x _
    by_cases hxd : x = d
    · subst hxd
      rw [roundStep_iters_self g L hS lossOf s x hg, List.length_drop]
      omega
    · rw [roundStep_iters_ne g L hS lossOf s d x hg hxd]
  · rw [roundStep_iters_self g L hS lossOf s d hg, List.length_drop]
    have := List.length_pos.mpr hne
    omega

theorem passRun_rem_le (g L : ℕ) (hS : Bool) (lossOf : ℕ × ℕ → ℚ) (hg : 1 ≤ g)
    (n : ℕ) : ∀ (perm : List ℕ) (s : SchedState),
      rem n (passRun g L hS lossOf s perm) ≤ rem n s := by
  intro perm
  induction perm with
  | nil => intro s; exact le_refl _
  | cons a rest ih =>
    intro s
    simp only [passRun, List.foldl_cons]
    exact le_trans (ih (roundStep g L hS lossOf s a))
      (roundStep_rem_le g L hS lossOf hg n s a)

theorem passRun_rem_lt (g L : ℕ) (hS : Bool) (lossOf : ℕ × ℕ → ℚ) (hg : 1 ≤ g)
    (n : ℕ) : ∀ (perm : List ℕ) (s : SchedState) (d : ℕ), perm.Nodup → d ∈ perm →
      d < n → s.iters d ≠ [] →
      rem n (passRun g L hS lossOf s perm) < rem n s := by
  intro perm
  induction perm with
  | nil => intro s d _ hd; simp at hd
  | cons a rest ih =>
    intro s d hnodup hd hdn hne
    simp only [passRun, List.foldl_cons] at *
    rcases List.mem_cons.mp hd with rfl | hdr
    · exact lt_of_le_of_lt (passRun_rem_le g L hS lossOf hg n rest _)
        (roundStep_rem_lt g L hS lossOf hg n s d hdn hne)
    · have had : d ≠ a := fun heq => (List.nodup_cons.mp hnodup).1 (heq ▸ hdr)
      have hne' : (roundStep g L hS lossOf s a).iters d ≠ [] := by
        rw [roundStep_iters_ne g L hS lossOf s a d hg had]
        exact hne
      exact lt_of_lt_of_le
        (ih (roundStep g L hS lossOf s a) d (List.nodup_cons.mp hnodup).2 hdr hdn hne')
        (roundStep_rem_le g L hS lossOf hg n s a)

theorem passRun_finished_mono (g L : ℕ) (hS : Bool) (lossOf : ℕ × ℕ → ℚ) (hg : 1 ≤ g) :
    ∀ (perm : List ℕ) (s : SchedState) (x : ℕ), s.finished x = true →
      (passRun g L hS lossOf s perm).finished x = true := by
  intro perm
  induction perm with
  | nil => intro s x hx; exact hx
  | cons a rest ih =>
    intro s x hx
    simp only [passRun, List.foldl_cons] at *
    exact ih _ x (roundStep_finished_mono g L hS lossOf s a x hg hx)

theorem roundStep_empty_preserved (g L : ℕ) (hS : Bool) (lossOf : ℕ × ℕ → ℚ)
    (hg : 1 ≤ g) (s : SchedState) (a : ℕ) (hempty : ∀ x, s.iters x = []) :
    ∀ x, (roundStep g L hS lossOf s a).iters x = [] := by
  intro x
  by_cases hxa : x = a
  · subst hxa
    rw [roundStep_iters_self g L hS lossOf s x hg, hempty x, List.drop_nil]
  · rw [roundStep_iters_ne g L hS lossOf s a x hg hxa]
    exact hempty x

theorem passRun_finishes (g L : ℕ) (hS : Bool) (lossOf : ℕ × ℕ → ℚ) (hg : 1 ≤ g) :
    ∀ (perm : List ℕ) (s : SchedState), (∀ x, s.iters x = []) →
      ∀ d ∈ perm, (passRun g L hS lossOf s perm).finished d = true := by
  intro perm
  induction perm with
  | nil => intro s _ d hd; simp at hd
  | cons a rest ih =>
    intro s hempty d hd
    simp only [passRun, List.foldl_cons] at *
    rcases List.mem_cons.mp hd with rfl | hdr
    · exact passRun_finished_mono g L hS lossOf hg rest _ d
        (roundStep_finishes_empty g L hS lossOf s d hg (hempty d))
    · exact ih (roundStep g L hS lossOf s a)
        (roundStep_empty_preserved g L hS lossOf hg s a hempty) d hdr

theorem someUnfinished_eq_false_iff (n : ℕ) (s : SchedState) :
    someUnfinished n s = false ↔ ∀ d < n, s.finished d = true := by
  unfold someUnfinished
  rw [List.any_eq_false]
  constructor
  · intro h d hd
    have := h d (List.mem_range.mpr hd)
    simpa using this
  · intro h d hd
    simpa using h d (List.mem_range.mp hd)

theorem epochLoop_stop (n g L : ℕ) (hS : Bool) (lossOf : ℕ × ℕ → ℚ)
    (perms : ℕ → List ℕ) (fuel k : ℕ) (s : SchedState)
    (hstop : someUnfinished n s = false) :
    epochLoop n g L hS lossOf perms fuel k s = s := by
  cases fuel with
  | zero => rfl
  | succ f =>
    rw [epochLoop, if_neg]
    simp [hstop]

theorem epochLoop_end (counts : List ℕ) (g L : ℕ) (hS : Bool) (lossOf : ℕ × ℕ → ℚ)
    (perms : ℕ → List ℕ) (hg : 1 ≤ g)
    (hperms : ∀ k, (perms k).Perm (List.range counts.length)) :
    ∀ (fuel k : ℕ) (s : SchedState), SchedInv counts g L hS lossOf s →
      rem counts.length s + 1 ≤ fuel →
      SchedInv counts g L hS lossOf
        (epochLoop counts.length g L hS lossOf perms fuel k s) ∧
      ∀ d < counts.length,
        (epochLoop counts.length g L hS lossOf perms fuel k s).finished d = true := by
  intro fuel
  induction fuel with
  | zero => intro k s _ hf; omega
  | succ f ih =>
    intro k s hinv hf
    by_cases hguard : someUnfinished counts.length s = true
    · rw [epochLoop, if_pos hguard]
      have hinv' := passRun_inv counts g L hS lossOf hg (perms k) s hinv
      by_cases hrem : rem counts.length s = 0
      · have hempty : ∀ x, s.iters x = [] := by
          intro x
          by_cases hx : x < counts.length
          · exact List.length_eq_zero.mp
              (Finset.sum_eq_zero_iff.mp hrem x (Finset.mem_range.mpr hx))
          · exact hinv.1 x (by omega)
        have hfinall : ∀ d < counts.length,
            (passRun g L hS lossOf s (perms k)).finished d = true := by
          intro d hd
          exact passRun_finishes g L hS lossOf hg (perms k) s hempty d
            (((hperms k).mem_iff).mpr (List.mem_range.mpr hd))
        rw [epochLoop_stop _ _ _ _ _ _ _ _ _
          ((someUnfinished_eq_false_iff _ _).mpr hfinall)]
        exact ⟨hinv', hfinall⟩
      · obtain ⟨d0, hd0, hne0⟩ : ∃ d0, d0 < counts.length ∧ s.iters d0 ≠ [] := by
          by_contra hcon
          push_neg at hcon
          apply hrem
          apply Finset.sum_eq_zero
          intro x hx
          rw [hcon x (Finset.mem_range.mp hx)]
          rfl
        have hnodup : (perms k).Nodup :=
          ((hperms k).nodup_iff).mpr (List.nodup_range _)
        have hmem : d0 ∈ perms k :=
          ((hperms k).mem_iff).mpr (List.mem_range.mpr hd0)
        have hlt := passRun_rem_lt g L hS lossOf hg counts.length (perms k) s d0
          hnodup hmem hd0 hne0
        exact ih (k + 1) _ hinv' (by omega)
    · rw [epochLoop, if_neg hguard]
      have hsu : someUnfinished counts.length s = false := by
        cases hx : someUnfinished counts.length s
        · rfl
        · exact absurd hx hguard
      exact ⟨hinv, (someUnfinished_eq_false_iff _ _).mp hsu⟩

theorem initSched_inv (counts : List ℕ) (g L : ℕ) (hS : Bool) (lossOf : ℕ × ℕ → ℚ) :
    SchedInv counts g L hS lossOf (initSched counts) := by
  refine ⟨?_, ?_, ?_, ?_, rfl, ?_, ?_, ?_, rfl, rfl, rfl⟩
  · intro d hd
    unfold initSched origBatches
    dsimp only
    rw [List.getD_eq_default _ _ hd]
    rfl
  · intro d hd
    cases hd
  · intro d
    simp [initSched, consumed]
  · intro p hp
    simp [initSched] at hp
  · cases hS <;> rfl
  · intro d hd
    cases hd
  · intro d _
    simp [initSched, consumed, countG]

theorem sum_getD_eq (counts : List ℕ) :
    ∑ d ∈ Finset.range counts.length, counts.getD d 0 = counts.sum := by
  induction counts with
  | nil => simp
  | cons c rest ih =>
    rw [List.length_cons, Finset.sum_range_succ']
    simp only [List.getD_cons_succ, List.getD_cons_zero]
    rw [ih, List.sum_cons]
    omega

theorem rem_init (counts : List ℕ) :
    rem counts.length (initSched counts) = counts.sum := by
  unfold rem initSched
  dsimp only
  rw [← sum_getD_eq counts]
  apply Finset.sum_congr rfl
  intro d _
  exact origBatches_length counts d

theorem runEpoch_end (counts : List ℕ) (g L : ℕ) (hS : Bool) (lossOf : ℕ × ℕ → ℚ)
    (perms : ℕ → List ℕ) (hg : 1 ≤ g)
    (hperms : ∀ k, (perms k).Perm (List.range counts.length)) :
    SchedInv counts g L hS lossOf (runEpoch counts g L hS lossOf perms) ∧
    ∀ d < counts.length, (runEpoch counts g L hS lossOf perms).finished d = true := by
  unfold runEpoch
  exact epochLoop_end counts g L hS lossOf perms hg hperms (counts.sum + 1) 0
    (initSched counts) (initSched_inv counts g L hS lossOf) (by rw [rem_init])

theorem groups_length_eq_sum (n : ℕ) :
    ∀ gs : List (ℕ × List (ℕ × ℕ)), (∀ p ∈ gs, p.1 < n) →
      gs.length = ∑ d ∈ Finset.range n, countG d gs := by
  intro gs
  induction gs with
  | nil => intro _; simp [countG]
  | cons p gs ih =>
    intro h
    have hp : p.1 < n := h p (List.mem_cons_self p gs)
    have hcount : ∀ d, countG d (p :: gs) = (if p.1 = d then 1 else 0) + countG d gs := by
      intro d
      unfold countG
      rw [List.filter_cons]
      by_cases hd : p.1 = d
      · simp [hd]
        omega
      · simp [hd]
    simp only [hcount]
    rw [Finset.sum_add_distrib, Finset.sum_ite_eq (Finset.range n) p.1 (fun _ => 1),
      if_pos (Finset.mem_range.mpr hp), List.length_cons,
      ih (fun q hq => h q (List.mem_cons_of_mem p hq))]
    omega

theorem flatten_length_eq_sum (n : ℕ) :
    ∀ gs : List (ℕ × List (ℕ × ℕ)), (∀ p ∈ gs, p.1 < n) →
      ((gs.map Prod.snd).flatten).length =
        ∑ d ∈ Finset.range n, (consumed d gs).length := by
  intro gs
  induction gs with
  | nil => intro _; simp [consumed]
  | cons p gs ih =>
    intro h
    have hp : p.1 < n := h p (List.mem_cons_self p gs)
    have hcons : ∀ d, (consumed d (p :: gs)).length =
        (if p.1 = d then p.2.length else 0) + (consumed d gs).length := by
      intro d
      unfold consumed
      rw [List.filter_cons]
      by_cases hd : p.1 = d
      · simp [hd]
      · simp [hd]
    simp only [hcons]
    rw [Finset.sum_add_distrib,
      Finset.sum_ite_eq (Finset.range n) p.1 (fun _ => p.2.length),
      if_pos (Finset.mem_range.mpr hp)]
    simp only [List.map_cons, List.flatten_cons, List.length_append]
    rw [ih (fun q hq => h q (List.mem_cons_of_mem p hq))]

theorem count_flatten_eq_consumed :
    ∀ gs : List (ℕ × List (ℕ × ℕ)), (∀ p ∈ gs, ∀ b ∈ p.2, b.1 = p.1) →
      ∀ b : ℕ × ℕ, ((gs.map Prod.snd).flatten).count b = (consumed b.1 gs).count b := by
  intro gs
  induction gs with
  | nil => intro _ b; simp [consumed]
  | cons p gs ih =>
    intro h b
    have hcons : consumed b.1 (p :: gs) =
        (if p.1 = b.1 then p.2 else []) ++ consumed b.1 gs := by
      unfold consumed
      rw [List.filter_cons]
      by_cases hd : p.1 = b.1
      · simp [hd]
      · simp [hd]
    simp only [List.map_cons, List.flatten_cons, hcons, List.count_append]
    rw [ih (fun q hq => h q (List.mem_cons_of_mem p hq)) b]
    by_cases hd : p.1 = b.1
    · rw [if_pos hd]
    · rw [if_neg hd]
      have hz : p.2.count b = 0 := by
        rw [List.count_eq_zero]
        intro hmem
        exact hd (h p (List.mem_cons_self p gs) b hmem).symm
      rw [hz]
      simp

theorem count_origBatches (counts : List ℕ) (b : ℕ × ℕ) :
    (origBatches counts b.1).count b =
      if b.2 < counts.getD b.1 0 then 1 else 0 := by
  obtain ⟨d, j⟩ := b
  unfold origBatches
  dsimp only
  generalize counts.getD d 0 = m
  induction m with
  | zero => simp
  | succ m ih =>
    rw [List.range_succ, List.map_append, List.count_append, ih]
    simp only [List.map_cons, List.map_nil]
    by_cases h : j = m
    · subst h
      rw [if_neg (by omega), if_pos (by omega)]
      simp
    · by_cases h2 : j < m
      · rw [if_pos h2, if_pos (by omega)]
        simp [List.count_cons, h]
      · rw [if_neg h2, if_neg (by omega)]
        simp [List.count_cons, h]

/-- C2 (interleaved scheduler invariant): for every list of per-domain batch
counts, every positive accumulation factor `g` and every sequence of shuffle
orders, one epoch of the scheduler consumes each domain's batch sequence
exactly once, in iterator order (so an exhausted domain contributes nothing
further while the others continue until drained); every accumulation group
holds batches of a single domain; and, counting over all processed groups,
each batch of each loader appears exactly once. -/
theorem interleavedScheduler_invariant (counts : List ℕ) (g logInterval : ℕ)
    (hasSched : Bool) (lossOf : ℕ × ℕ → ℚ) (perms : ℕ → List ℕ) (hg : 1 ≤ g)
    (hperms : ∀ k, (perms k).Perm (List.range counts.length)) :
    (∀ d, consumed d (runEpoch counts g logInterval hasSched lossOf perms).groups =
      origBatches counts d) ∧
    (∀ p ∈ (runEpoch counts g logInterval hasSched lossOf perms).groups,
      ∀ b ∈ p.2, b.1 = p.1) ∧
    (∀ b : ℕ × ℕ,
      (((runEpoch counts g logInterval hasSched lossOf perms).groups.map
        Prod.snd).flatten).count b =
      if b.2 < counts.getD b.1 0 then 1 else 0) := by
  obtain ⟨hinv, hfins⟩ := runEpoch_end counts g logInterval hasSched lossOf perms hg hperms
  obtain ⟨h1, h2, h3, h4, _, _, _, _, _, _, _⟩ := hinv
  have hdrained : ∀ d,
      consumed d (runEpoch counts g logInterval hasSched lossOf perms).groups =
        origBatches counts d := by
    intro d
    have hit : (runEpoch counts g logInterval hasSched lossOf perms).iters d = [] := by
      by_cases hd : d < counts.length
      · exact h2 d (hfins d hd)
      · exact h1 d (by omega)
    have := h3 d
    rwa [hit, List.append_nil] at this
  refine ⟨hdrained, fun p hp => (h4 p hp).2.2, ?_⟩
  intro b
  rw [count_flatten_eq_consumed _ (fun p hp => (h4 p hp).2.2) b, hdrained b.1,
    count_origBatches]

theorem interleavedScheduler_invariant_witness :
    consumed 1 (runEpoch [3, 5, 2] 2 1 true (fun _ => 0) (fun _ => [0, 1, 2])).groups =
      origBatches [3, 5, 2] 1 :=
  (interleavedScheduler_invariant [3, 5, 2] 2 1 true (fun _ => 0) (fun _ => [0, 1, 2])
    (by decide)
    (fun _ => (by decide : ([0, 1, 2] : List ℕ).Perm (List.range ([3, 5, 2] : List ℕ).length)))).1 1

/-- C3 (optimizer-step accounting): with a positive accumulation factor `g`,
every processed accumulation group is nonempty and triggers exactly one
optimizer step and — when a scheduler is present — exactly one scheduler
step; every backward call carries the batch's loss scaled by `1/g` (also in
the short group at an exhaustion boundary); a round pulling zero batches
performs no step; and the epoch's optimizer-step total is the sum over the
domains of `⌈batch count / g⌉`. -/
theorem optimizerStep_accounting (counts : List ℕ) (g logInterval : ℕ)
    (hasSched : Bool) (lossOf : ℕ × ℕ → ℚ) (perms : ℕ → List ℕ) (hg : 1 ≤ g)
    (hperms : ∀ k, (perms k).Perm (List.range counts.length)) :
    (runEpoch counts g logInterval hasSched lossOf perms).optSteps =
      ∑ d ∈ Finset.range counts.length, cdiv (counts.getD d 0) g ∧
    (runEpoch counts g logInterval hasSched lossOf perms).optSteps =
      (runEpoch counts g logInterval hasSched lossOf perms).groups.length ∧
    (∀ p ∈ (runEpoch counts g logInterval hasSched lossOf perms).groups, p.2 ≠ []) ∧
    (runEpoch counts g logInterval hasSched lossOf perms).schedSteps =
      (if hasSched then
        (runEpoch counts g logInterval hasSched lossOf perms).optSteps else 0) ∧
    (runEpoch counts g logInterval hasSched lossOf perms).backwards =
      (((runEpoch counts g logInterval hasSched lossOf perms).groups.map
        Prod.snd).flatten).map (fun b => (b, lossOf b / (g : ℚ))) := by
  obtain ⟨hinv, hfins⟩ := runEpoch_end counts g logInterval hasSched lossOf perms hg hperms
  obtain ⟨h1, h2, h3, h4, h5, h6, h7, h8, h9, h10, h11⟩ := hinv
  refine ⟨?_, h5, fun p hp => (h4 p hp).2.1, h6, h9⟩
  rw [h5, groups_length_eq_sum counts.length _ (fun p hp => (h4 p hp).1)]
  apply Finset.sum_congr rfl
  intro d hd
  exact h7 d (hfins d (Finset.mem_range.mp hd))

theorem optimizerStep_accounting_witness :
    (runEpoch [3, 5, 2] 2 2 true (fun _ => 0) (fun _ => [0, 1, 2])).optSteps =
      ∑ d ∈ Finset.range ([3, 5, 2] : List ℕ).length, cdiv (([3, 5, 2] : List ℕ).getD d 0) 2 :=
  (optimizerStep_accounting [3, 5, 2] 2 2 true (fun _ => 0) (fun _ => [0, 1, 2])
    (by decide)
    (fun _ => (by decide : ([0, 1, 2] : List ℕ).Perm (List.range ([3, 5, 2] : List ℕ).length)))).1

/-- C9 counterexample: the loss-logging condition of lines 92-95 tests the
per-batch counter `i`, not an accumulation-group counter.  With one domain of
2 batches, accumulation factor `g = 2` and `log_interval = 1`, the epoch
processes exactly one accumulation group, but two loss events are emitted
(at `i = 0` and `i = 1`) — not one event per `log_interval`-th group as the
claim states. -/
theorem loggingCadence_counterexample :
    ¬ ((runEpoch [2] 2 1 true (fun _ => 0) (fun _ => [0])).logs.length =
       (runEpoch [2] 2 1 true (fun _ => 0) (fun _ => [0])).groups.length) := by
  decide

/-- C9 amended (logging cadence): during one epoch, a scalar loss event is
emitted exactly at the batches whose 0-based per-epoch batch counter is
divisible by `log_interval` — i.e. per processed batch, not per accumulation
group; per-epoch validation metrics are still emitted only on epochs whose
validation accuracy improves on the best seen so far. -/
theorem loggingCadence_amended (counts : List ℕ) (g logInterval : ℕ) (hasSched : Bool)
    (lossOf : ℕ × ℕ → ℚ) (perms : ℕ → List ℕ) (accs : ℕ → ℚ) (n_epochs patience : ℕ)
    (hg : 1 ≤ g) (_hL : 1 ≤ logInterval)
    (hperms : ∀ k, (perms k).Perm (List.range counts.length)) :
    (runEpoch counts g logInterval hasSched lossOf perms).logs =
      (List.range counts.sum).filter (fun x => x % logInterval == 0) ∧
    (∀ e ∈ (train accs n_epochs patience).checkpoints, foldBest accs 0 0 e < accs e) := by
  obtain ⟨hinv, hfins⟩ := runEpoch_end counts g logInterval hasSched lossOf perms hg hperms
  obtain ⟨h1, h2, h3, h4, _, _, _, _, _, h10, h11⟩ := hinv
  constructor
  · have hdrained : ∀ d,
        consumed d (runEpoch counts g logInterval hasSched lossOf perms).groups =
          origBatches counts d := by
      intro d
      have hit : (runEpoch counts g logInterval hasSched lossOf perms).iters d = [] := by
        by_cases hd : d < counts.length
        · exact h2 d (hfins d hd)
        · exact h1 d (by omega)
      have := h3 d
      rwa [hit, List.append_nil] at this
    have hctr : (runEpoch counts g logInterval hasSched lossOf perms).ctr = counts.sum := by
      rw [h11, flatten_length_eq_sum counts.length _ (fun p hp => (h4 p hp).1),
        ← sum_getD_eq counts]
      apply Finset.sum_congr rfl
      intro d _
      rw [hdrained d, origBatches_length]
    rw [h10, hctr]
  · intro e he
    simp only [train] at he
    exact (esGo_checkpoints_sound accs patience n_epochs 0 0 0 e he).2.2

theorem loggingCadence_amended_witness :
    (runEpoch [2] 1 2 true (fun _ => 0) (fun _ => [0])).logs =
      (List.range ([2] : List ℕ).sum).filter (fun x => x % 2 == 0) :=
  (loggingCadence_amended [2] 1 2 true (fun _ => 0) (fun _ => [0]) demoAccs 10 2
    (by decide) (by decide)
    (fun _ => (by decide : ([0] : List ℕ).Perm (List.range ([2] : List ℕ).length)))).1

end TrainBasic
